import Mathlib

/-!
Verification of the streaming tokenizer in
`src/buffer/token/token_iterator.rs` (scribe).

The per-line tokenization algorithm (`TokenIterator::parse_next_line`,
`line_length`, `next_token`, `Iterator::next`) is embedded directly from the
source.  External collaborators and sibling modules that are not part of the
visible source (the line source `LineIterator`, the token data types from
`buffer`, and syntect's grammar engine and scope stack) are modelled from the
specification's description of their contracts.
-/

namespace Scribe

/-- Modelled from the spec: a scope is an opaque classification label
assigned by the external grammar engine; we model labels as atoms. -/
abbrev Scope := Nat

/-- Modelled from the spec: a scope transition bundles push/pop operations
that the external scope stack applies in order. -/
inductive ScopeOp where
  | push (s : Scope)
  | pop
deriving DecidableEq

/-- Modelled from the spec: one scope-change event payload, a bundle of
push/pop operations. -/
abbrev ScopeChange := List ScopeOp

/-- Modelled from the spec: the external scope stack applies a transition in
place; the deepest active scope is the last element of the stack. -/
def applyChange (st : List Scope) (c : ScopeChange) : List Scope :=
  c.foldl (fun s op => match op with
    | ScopeOp.push x => s ++ [x]
    | ScopeOp.pop => s.dropLast) st

/-- The scope stack obtained by applying a list of events (offset/change
pairs) in order, ignoring the offsets.  This mirrors the sequence of
`self.scopes.apply(&scope_change)` calls performed by `parse_next_line`. -/
def applyEvs (sc : List Scope) (evs : List (Nat × ScopeChange)) : List Scope :=
  evs.foldl (fun s e => applyChange s e.2) sc

/-- Modelled from the spec: `Position` from the `buffer` module, a
(line, byte-offset-within-line) pair. -/
structure Position where
  line : Nat
  offset : Nat
deriving DecidableEq

/-- Modelled from the spec: `Lexeme` from the `buffer` module.  The borrowed
`&str` value is modelled as the list of characters of the slice. -/
structure Lexeme where
  value : List Char
  scope : Option Scope
  position : Position
deriving DecidableEq

/-- Modelled from the spec: `Token` from the `buffer` module - either a
lexeme or a payload-free newline marker. -/
inductive Token where
  | lexeme (l : Lexeme)
  | newline
deriving DecidableEq

/-- Embeds `line_length`: the slice length minus one if the slice ends with
a line feed, else the full length. -/
def lineLength (line : List Char) : Nat :=
  if line.getLast? = some '\n' then line.length - 1 else line.length

/-- The sub-slice `&line[a..b]` of a line, as used by `parse_next_line`. -/
def slice (l : List Char) (a b : Nat) : List Char :=
  (l.drop a).take (b - a)

/-- The lexeme that `parse_next_line` constructs for span `[a, b)` of a line:
value `&line[a..b]`, scope `scopes.as_slice().last()`, position
`(line_number, a)`. -/
def mkLexeme (line : List Char) (n a b : Nat) (sc : List Scope) : Lexeme :=
  ⟨slice line a b, sc.getLast?, ⟨n, a⟩⟩

/-- The loop state of `parse_next_line`: the token vector built so far, the
running `offset` cursor, and the scope stack. -/
structure LineParse where
  tokens : List Token
  offset : Nat
  scopes : List Scope
deriving DecidableEq

/-- Embeds one iteration of the event loop in `parse_next_line`: if
`change_offset > offset`, push the completed lexeme (scoped by the current
deepest scope) and advance the cursor; then apply the scope change. -/
def processEvent (line : List Char) (n : Nat) (st : LineParse) (ev : Nat × ScopeChange) : LineParse :=
  if st.offset < ev.1 then
    ⟨st.tokens ++ [Token.lexeme (mkLexeme line n st.offset ev.1 st.scopes)],
      ev.1, applyChange st.scopes ev.2⟩
  else
    ⟨st.tokens, st.offset, applyChange st.scopes ev.2⟩

/-- The event loop of `parse_next_line` run from an arbitrary cursor and
scope stack, with an empty token accumulator. -/
def linePass (line : List Char) (n o : Nat) (sc : List Scope) (evs : List (Nat × ScopeChange)) : LineParse :=
  evs.foldl (processEvent line n) ⟨[], o, sc⟩

/-- Embeds the body of `parse_next_line` for one `(line_number, line)` pair:
the leading newline token for non-first lines, the event loop, and the final
remainder lexeme up to `line_length`.  Returns the rebuilt token buffer and
the updated scope stack. -/
def parseLine (n : Nat) (line : List Char) (evs : List (Nat × ScopeChange)) (sc : List Scope) :
    List Token × List Scope :=
  let st := evs.foldl (processEvent line n) ⟨if 0 < n then [Token.newline] else [], 0, sc⟩
  if st.offset < lineLength line then
    (st.tokens ++ [Token.lexeme (mkLexeme line n st.offset (lineLength line) st.scopes)], st.scopes)
  else
    (st.tokens, st.scopes)

/-- The content tokens of one line: what `parse_next_line` pushes after the
optional leading newline token. -/
def lexLineTokens (n : Nat) (line : List Char) (evs : List (Nat × ScopeChange)) (sc : List Scope) :
    List Token :=
  if (linePass line n 0 sc evs).offset < lineLength line then
    (linePass line n 0 sc evs).tokens ++
      [Token.lexeme (mkLexeme line n (linePass line n 0 sc evs).offset (lineLength line)
        (linePass line n 0 sc evs).scopes)]
  else
    (linePass line n 0 sc evs).tokens

/-- Concatenation of the `value` fields of all lexeme tokens of a stream,
with one line terminator inserted at each newline token's position. -/
def reconstruct : List Token → List Char
  | [] => []
  | Token.lexeme l :: ts => l.value ++ reconstruct ts
  | Token.newline :: ts => '\n' :: reconstruct ts

/-- The positions of the lexeme tokens of a stream, in stream order. -/
def positionsOf : List Token → List Position
  | [] => []
  | Token.lexeme l :: ts => l.position :: positionsOf ts
  | Token.newline :: ts => positionsOf ts

/-- Modelled from the spec: the line source (`LineIterator`, not part of the
visible source) splits the document after every line terminator; every slice
except the last keeps its terminator, and a final (possibly empty) slice
without terminator is always produced. -/
def splitLines : List Char → List (List Char)
  | [] => [[]]
  | c :: rest =>
    if c = '\n' then ['\n'] :: splitLines rest
    else
      match splitLines rest with
      | [] => [[c]]
      | l :: ls => (c :: l) :: ls

/-- Modelled from the spec: the line source pairs the slices with
zero-indexed, strictly increasing line numbers. -/
def numberLines (j : Nat) : List (List Char) → List (Nat × List Char)
  | [] => []
  | l :: ls => (j, l) :: numberLines (j + 1) ls

/-- Concatenation of a list of lines. -/
def flat : List (List Char) → List Char
  | [] => []
  | l :: ls => l ++ flat ls

/-- The concatenation, in order, of the token buffers that
`parse_next_line` rebuilds for the given numbered lines, threading the scope
stack from line to line.  The grammar engine is modelled as an oracle `ev`
giving the event list for each line number. -/
def tokenizeLines (ev : Nat → List (Nat × ScopeChange)) : List Scope → List (Nat × List Char) → List Token
  | _, [] => []
  | sc, (n, line) :: rest =>
    (parseLine n line (ev n) sc).1 ++ tokenizeLines ev (parseLine n line (ev n) sc).2 rest

/-- The whole token stream of a document: every line's rebuilt buffer, in
line order, starting from an empty scope stack. -/
def tokenizeDocument (text : List Char) (ev : Nat → List (Nat × ScopeChange)) : List Token :=
  tokenizeLines ev [] (numberLines 0 (splitLines text))

/-- Shape invariant of the line source's output: every slice but the last
ends with a terminator, and the last does not. -/
def WellLines : List (List Char) → Prop
  | [] => True
  | [l] => l.getLast? ≠ some '\n'
  | l :: rest => l.getLast? = some '\n' ∧ WellLines rest

/-- Embeds the state of `TokenIterator`: scope stack, optional buffer of the
current line's remaining tokens, remaining lines, and the grammar-engine
oracle standing in for the persisted `ParseState`. -/
structure TokenIterator where
  scopes : List Scope
  lineTokens : Option (List Token)
  lines : List (Nat × List Char)
  events : Nat → List (Nat × ScopeChange)

/-- Embeds `TokenIterator::new`. -/
def TokenIterator.new (text : List Char) (ev : Nat → List (Nat × ScopeChange)) : TokenIterator :=
  ⟨[], none, numberLines 0 (splitLines text), ev⟩

/-- Embeds the state mutation of `parse_next_line`: pull the next line and
rebuild the buffer, or set the buffer to `none` when the line source is
exhausted. -/
def parseNextLine (it : TokenIterator) : TokenIterator :=
  match it.lines with
  | (n, line) :: rest =>
    ⟨(parseLine n line (it.events n) it.scopes).2,
      some (parseLine n line (it.events n) it.scopes).1, rest, it.events⟩
  | [] => ⟨it.scopes, none, it.lines, it.events⟩

/-- Embeds `TokenIterator::next_token`: drain the current buffer if it has a
token, otherwise advance to the next line once and try the fresh buffer. -/
def nextToken (it : TokenIterator) : Option Token × TokenIterator :=
  match it.lineTokens with
  | some (t :: ts) => (some t, ⟨it.scopes, some ts, it.lines, it.events⟩)
  | _ =>
    match (parseNextLine it).lineTokens with
    | some (t :: ts) =>
      (some t, ⟨(parseNextLine it).scopes, some ts, (parseNextLine it).lines, (parseNextLine it).events⟩)
    | _ => (none, parseNextLine it)

/-- Embeds `Iterator::next` for `TokenIterator`: `next_token`, with one
extra `parse_next_line`-and-retry when it yields nothing. -/
def next (it : TokenIterator) : Option Token × TokenIterator :=
  match nextToken it with
  | (some t, it') => (some t, it')
  | (none, it') => nextToken (parseNextLine it')

/-- The stream is exhausted: no lines remain and the buffer is empty or
absent. -/
def Exhausted (it : TokenIterator) : Prop :=
  it.lines = [] ∧ (it.lineTokens = none ∨ it.lineTokens = some [])

/-- The iterator state after a number of pulls. -/
def afterPulls (it : TokenIterator) : Nat → TokenIterator
  | 0 => it
  | k + 1 => (next (afterPulls it k)).2

/-- Whether a token is a lexeme. -/
def isLex : Token → Bool
  | Token.lexeme _ => true
  | Token.newline => false

/-- Number of newline tokens in a stream. -/
def countNL : List Token → Nat
  | [] => 0
  | Token.newline :: ts => countNL ts + 1
  | Token.lexeme _ :: ts => countNL ts

/-- Strict lexicographic order on positions. -/
def posLt (p q : Position) : Prop :=
  p.line < q.line ∨ (p.line = q.line ∧ p.offset < q.offset)

end Scribe


namespace Scribe

/-! ### Facts about the modelled line source -/

theorem splitLines_ne_nil (t : List Char) : splitLines t ≠ [] := by
  induction t with
  | nil => simp [splitLines]
  | cons c rest ih =>
    simp only [splitLines]
    split
    · simp
    · cases h : splitLines rest with
      | nil => simp
      | cons l ls => simp

theorem flat_splitLines (t : List Char) : flat (splitLines t) = t := by
  induction t with
  | nil => simp [splitLines, flat]
  | cons c rest ih =>
    by_cases hc : c = '\n'
    · subst hc
      simp only [splitLines, if_pos rfl, flat]
      simp [ih]
    · simp only [splitLines, if_neg hc]
      cases h : splitLines rest with
      | nil => exact absurd h (splitLines_ne_nil rest)
      | cons l ls =>
        rw [h] at ih
        simp only [flat] at ih ⊢
        simp [← ih]

theorem getLast?_cons_of_ne_nil {α : Type} (c : α) {l : List α} (h : l ≠ []) :
    (c :: l).getLast? = l.getLast? := by
  cases l with
  | nil => exact absurd rfl h
  | cons b l2 => exact List.getLast?_cons_cons

theorem wellLines_splitLines (t : List Char) : WellLines (splitLines t) := by
  induction t with
  | nil => simp [splitLines, WellLines]
  | cons c rest ih =>
    by_cases hc : c = '\n'
    · subst hc
      simp only [splitLines, if_pos rfl]
      cases h : splitLines rest with
      | nil => exact absurd h (splitLines_ne_nil rest)
      | cons l ls =>
        rw [h] at ih
        exact ⟨by simp, ih⟩
    · simp only [splitLines, if_neg hc]
      cases h : splitLines rest with
      | nil => exact absurd h (splitLines_ne_nil rest)
      | cons l ls =>
        rw [h] at ih
        cases ls with
        | nil =>
          cases l with
          | nil => simpa [WellLines] using hc
          | cons d ds =>
            have : (d :: ds).getLast? ≠ some '\n' := ih
            simpa [WellLines, List.getLast?_cons_cons] using this
        | cons l2 ls2 =>
          obtain ⟨h1, h2⟩ := ih
          refine ⟨?_, h2⟩
          have hne : l ≠ [] := by
            intro he; rw [he] at h1; simp at h1
          rw [getLast?_cons_of_ne_nil c hne]
          exact h1

theorem lineLength_le_length (l : List Char) : lineLength l ≤ l.length := by
  unfold lineLength; split <;> omega

theorem lineLength_eq_length {l : List Char} (h : l.getLast? ≠ some '\n') :
    lineLength l = l.length := by
  unfold lineLength
  rw [if_neg h]

theorem take_pred_append_getLast :
    ∀ (l : List Char) (c : Char), l.getLast? = some c → l.take (l.length - 1) ++ [c] = l := by
  intro l
  induction l with
  | nil => intro c h; simp at h
  | cons a l ih =>
    intro c h
    cases l with
    | nil =>
      simp at h
      subst h
      simp
    | cons b l2 =>
      rw [List.getLast?_cons_cons] at h
      have h2 := ih c h
      have hlen : (a :: b :: l2).length - 1 = (b :: l2).length := by simp
      rw [hlen]
      have : (a :: b :: l2).take (b :: l2).length = a :: (b :: l2).take ((b :: l2).length - 1) := by
        simp [List.take_succ_cons]
      rw [this, List.cons_append, h2]

theorem take_lineLength_append {l : List Char} (h : l.getLast? = some '\n') :
    l.take (lineLength l) ++ ['\n'] = l := by
  unfold lineLength
  rw [if_pos h]
  exact take_pred_append_getLast l '\n' h

theorem no_nl_in_content (t : List Char) :
    ∀ l ∈ splitLines t, '\n' ∉ l.take (lineLength l) := by
  induction t with
  | nil =>
    intro l hl
    simp [splitLines] at hl
    subst hl
    simp
  | cons c rest ih =>
    intro l hl
    by_cases hc : c = '\n'
    · subst hc
      simp only [splitLines, if_pos rfl] at hl
      rcases List.mem_cons.1 hl with h | h
      · subst h
        simp [lineLength]
      · exact ih l h
    · simp only [splitLines, if_neg hc] at hl
      cases h : splitLines rest with
      | nil => exact absurd h (splitLines_ne_nil rest)
      | cons l0 ls =>
        rw [h] at hl
        rcases List.mem_cons.1 hl with he | he
        · subst he
          have hl0 : '\n' ∉ l0.take (lineLength l0) := ih l0 (h ▸ List.mem_cons_self l0 ls)
          cases l0 with
          | nil =>
            have hll : lineLength [c] = 1 := by
              unfold lineLength
              rw [if_neg (by simpa using hc)]
              simp
            rw [hll]
            intro hmem
            simp at hmem
            exact hc hmem.symm
          | cons d ds =>
            by_cases hend : (d :: ds).getLast? = some '\n'
            · have hll : lineLength (c :: d :: ds) = (d :: ds).length := by
                unfold lineLength
                rw [if_pos (by rw [List.getLast?_cons_cons]; exact hend)]
                simp
            
              rw [hll]
              have hlen2 : (d :: ds).length = ((d :: ds).length - 1) + 1 := by simp
              intro hmem
              rw [show (c :: d :: ds).take ((d::ds).length) = c :: (d :: ds).take ((d::ds).length - 1) from by
                rw [hlen2, List.take_succ_cons]; simp] at hmem
              rcases List.mem_cons.1 hmem with h1 | h1
              · exact hc h1.symm
              · have : lineLength (d :: ds) = (d :: ds).length - 1 := by
                  unfold lineLength; rw [if_pos hend]
                rw [this] at hl0
                exact hl0 h1
            · have hll : lineLength (c :: d :: ds) = (c :: d :: ds).length := by
                apply lineLength_eq_length
                rw [List.getLast?_cons_cons]
                exact hend
              rw [hll, List.take_length]
              intro hmem
              rcases List.mem_cons.1 hmem with h1 | h1
              · exact hc h1.symm
              · have : lineLength (d :: ds) = (d :: ds).length := lineLength_eq_length hend
                rw [this, List.take_length] at hl0
                exact hl0 h1
        · exact ih l (h ▸ List.mem_cons_of_mem l0 he)

end Scribe

namespace Scribe

/-! ### The event loop of `parse_next_line` -/

theorem processEvent_lt (line : List Char) (n : Nat) (st : LineParse) (ev : Nat × ScopeChange)
    (h : st.offset < ev.1) :
    processEvent line n st ev =
      ⟨st.tokens ++ [Token.lexeme (mkLexeme line n st.offset ev.1 st.scopes)],
        ev.1, applyChange st.scopes ev.2⟩ := by
  simp [processEvent, h]

theorem processEvent_ge (line : List Char) (n : Nat) (st : LineParse) (ev : Nat × ScopeChange)
    (h : ¬ st.offset < ev.1) :
    processEvent line n st ev = ⟨st.tokens, st.offset, applyChange st.scopes ev.2⟩ := by
  simp [processEvent, h]

theorem linePass_nil (line : List Char) (n o : Nat) (sc : List Scope) :
    linePass line n o sc [] = ⟨[], o, sc⟩ := rfl

theorem foldl_factor (line : List Char) (n : Nat) :
    ∀ (evs : List (Nat × ScopeChange)) (ts : List Token) (o : Nat) (sc : List Scope),
      evs.foldl (processEvent line n) ⟨ts, o, sc⟩ =
        ⟨ts ++ (linePass line n o sc evs).tokens, (linePass line n o sc evs).offset,
          (linePass line n o sc evs).scopes⟩ := by
  intro evs
  induction evs with
  | nil => intro ts o sc; simp [linePass]
  | cons e evs ih =>
    intro ts o sc
    by_cases h : o < e.1
    · have hL : List.foldl (processEvent line n) ⟨ts, o, sc⟩ (e :: evs) =
          List.foldl (processEvent line n)
            ⟨ts ++ [Token.lexeme (mkLexeme line n o e.1 sc)], e.1, applyChange sc e.2⟩ evs := by
        rw [List.foldl_cons, processEvent_lt line n ⟨ts, o, sc⟩ e h]
      have hR : linePass line n o sc (e :: evs) =
          List.foldl (processEvent line n)
            ⟨[Token.lexeme (mkLexeme line n o e.1 sc)], e.1, applyChange sc e.2⟩ evs := by
        show List.foldl (processEvent line n) (processEvent line n ⟨[], o, sc⟩ e) evs = _
        rw [processEvent_lt line n ⟨[], o, sc⟩ e h]
        rfl
      rw [hL, hR, ih, ih]
      simp
    · have hL : List.foldl (processEvent line n) ⟨ts, o, sc⟩ (e :: evs) =
          List.foldl (processEvent line n) ⟨ts, o, applyChange sc e.2⟩ evs := by
        rw [List.foldl_cons, processEvent_ge line n ⟨ts, o, sc⟩ e h]
      have hR : linePass line n o sc (e :: evs) =
          List.foldl (processEvent line n) ⟨[], o, applyChange sc e.2⟩ evs := by
        show List.foldl (processEvent line n) (processEvent line n ⟨[], o, sc⟩ e) evs = _
        rw [processEvent_ge line n ⟨[], o, sc⟩ e h]
      rw [hL, hR, ih]
      rfl

theorem linePass_cons (line : List Char) (n : Nat) (e : Nat × ScopeChange)
    (evs : List (Nat × ScopeChange)) (o : Nat) (sc : List Scope) :
    linePass line n o sc (e :: evs) =
      if o < e.1 then
        ⟨Token.lexeme (mkLexeme line n o e.1 sc) ::
            (linePass line n e.1 (applyChange sc e.2) evs).tokens,
          (linePass line n e.1 (applyChange sc e.2) evs).offset,
          (linePass line n e.1 (applyChange sc e.2) evs).scopes⟩
      else linePass line n o (applyChange sc e.2) evs := by
  unfold linePass
  rw [List.foldl_cons]
  by_cases h : o < e.1
  · rw [if_pos h, processEvent_lt line n ⟨[], o, sc⟩ e h]
    simp only [List.nil_append]
    rw [foldl_factor]
    exact rfl
  · rw [if_neg h, processEvent_ge line n ⟨[], o, sc⟩ e h]

theorem linePass_scopes (line : List Char) (n : Nat) :
    ∀ (evs : List (Nat × ScopeChange)) (o : Nat) (sc : List Scope),
      (linePass line n o sc evs).scopes = applyEvs sc evs := by
  intro evs
  induction evs with
  | nil => intro o sc; rfl
  | cons e evs ih =>
    intro o sc
    rw [linePass_cons]
    by_cases h : o < e.1 <;> simp [h, ih, applyEvs, List.foldl_cons]

theorem linePass_offset_le (line : List Char) (n : Nat) :
    ∀ (evs : List (Nat × ScopeChange)) (o : Nat) (sc : List Scope),
      o ≤ (linePass line n o sc evs).offset := by
  intro evs
  induction evs with
  | nil => intro o sc; exact Nat.le_refl o
  | cons e evs ih =>
    intro o sc
    rw [linePass_cons]
    by_cases h : o < e.1
    · rw [if_pos h]
      exact Nat.le_trans (Nat.le_of_lt h) (ih e.1 (applyChange sc e.2))
    · rw [if_neg h]
      exact ih o (applyChange sc e.2)

theorem linePass_offset_bound (line : List Char) (n : Nat) {L : Nat} :
    ∀ (evs : List (Nat × ScopeChange)) (o : Nat) (sc : List Scope),
      (∀ e ∈ evs, e.1 ≤ L) → o ≤ L → (linePass line n o sc evs).offset ≤ L := by
  intro evs
  induction evs with
  | nil => intro o sc _ ho; exact ho
  | cons e evs ih =>
    intro o sc hevs ho
    rw [linePass_cons]
    by_cases h : o < e.1
    · rw [if_pos h]
      exact ih e.1 (applyChange sc e.2) (fun x hx => hevs x (List.mem_cons_of_mem e hx))
        (hevs e (List.mem_cons_self e evs))
    · rw [if_neg h]
      exact ih o (applyChange sc e.2) (fun x hx => hevs x (List.mem_cons_of_mem e hx)) ho

theorem linePass_events_le_offset (line : List Char) (n : Nat) :
    ∀ (evs : List (Nat × ScopeChange)) (o : Nat) (sc : List Scope),
      ∀ e ∈ evs, e.1 ≤ (linePass line n o sc evs).offset := by
  intro evs
  induction evs with
  | nil => intro o sc e he; simp at he
  | cons e evs ih =>
    intro o sc e' he'
    rw [linePass_cons]
    rcases List.mem_cons.1 he' with he | he
    · subst he
      by_cases h : o < e'.1
      · rw [if_pos h]
        exact linePass_offset_le line n evs e'.1 (applyChange sc e'.2)
      · rw [if_neg h]
        exact Nat.le_trans (Nat.le_of_not_lt h)
          (linePass_offset_le line n evs o (applyChange sc e'.2))
    · by_cases h : o < e.1
      · rw [if_pos h]
        exact ih e.1 (applyChange sc e.2) e' he
      · rw [if_neg h]
        exact ih o (applyChange sc e.2) e' he

end Scribe

namespace Scribe

/-! ### Slices and stream projections -/

theorem slice_zero_eq_take (l : List Char) (b : Nat) : slice l 0 b = l.take b := by
  simp [slice]

theorem slice_append_slice (l : List Char) {a b c : Nat} (hab : a ≤ b) (hbc : b ≤ c) :
    slice l a b ++ slice l b c = slice l a c := by
  unfold slice
  have hdrop : (l.drop a).drop (b - a) = l.drop b := by
    rw [List.drop_drop]
    congr 1
    omega
  rw [← hdrop, ← List.take_add]
  congr 1
  omega

theorem slice_length (l : List Char) (a b : Nat) :
    (slice l a b).length = min (b - a) (l.length - a) := by
  simp [slice]

theorem slice_eq_drop_take (l : List Char) (a b : Nat) :
    slice l a b = (l.take b).drop a := by
  rw [List.drop_take]
  rfl

theorem mem_slice_mem_take {l : List Char} {a b m : Nat} (hbm : b ≤ m) :
    ∀ c ∈ slice l a b, c ∈ l.take m := by
  intro c hc
  rw [slice_eq_drop_take] at hc
  have h1 : c ∈ l.take b := List.mem_of_mem_drop hc
  have h2 : l.take b = (l.take m).take b := by
    rw [List.take_take]
    congr 1
    omega
  rw [h2] at h1
  exact List.mem_of_mem_take h1

theorem reconstruct_append :
    ∀ (xs ys : List Token), reconstruct (xs ++ ys) = reconstruct xs ++ reconstruct ys
  | [], ys => rfl
  | Token.lexeme l :: xs, ys => by
    simp [reconstruct, reconstruct_append xs ys]
  | Token.newline :: xs, ys => by
    simp [reconstruct, reconstruct_append xs ys]

theorem positionsOf_append :
    ∀ (xs ys : List Token), positionsOf (xs ++ ys) = positionsOf xs ++ positionsOf ys
  | [], ys => rfl
  | Token.lexeme l :: xs, ys => by
    simp [positionsOf, positionsOf_append xs ys]
  | Token.newline :: xs, ys => by
    simp [positionsOf, positionsOf_append xs ys]

theorem countNL_append :
    ∀ (xs ys : List Token), countNL (xs ++ ys) = countNL xs + countNL ys
  | [], ys => by simp [countNL]
  | Token.lexeme l :: xs, ys => by
    simp [countNL, countNL_append xs ys]
  | Token.newline :: xs, ys => by
    show countNL (Token.newline :: (xs ++ ys)) = countNL (Token.newline :: xs) + countNL ys
    rw [show countNL (Token.newline :: (xs ++ ys)) = countNL (xs ++ ys) + 1 from rfl,
      countNL_append xs ys,
      show countNL (Token.newline :: xs) = countNL xs + 1 from rfl]
    omega

theorem countNL_eq_zero_of_not_mem :
    ∀ {ts : List Token}, Token.newline ∉ ts → countNL ts = 0
  | [], _ => rfl
  | Token.lexeme l :: ts, h => by
    simp only [countNL]
    exact countNL_eq_zero_of_not_mem (fun hm => h (List.mem_cons_of_mem _ hm))
  | Token.newline :: ts, h => absurd (List.mem_cons_self _ _) h

theorem applyEvs_cons (sc : List Scope) (e : Nat × ScopeChange) (evs : List (Nat × ScopeChange)) :
    applyEvs sc (e :: evs) = applyEvs (applyChange sc e.2) evs := rfl

/-! ### Content of the event-loop output -/

theorem linePass_reconstruct (line : List Char) (n : Nat) :
    ∀ (evs : List (Nat × ScopeChange)) (o : Nat) (sc : List Scope),
      reconstruct (linePass line n o sc evs).tokens =
        slice line o (linePass line n o sc evs).offset := by
  intro evs
  induction evs with
  | nil =>
    intro o sc
    simp [linePass_nil, reconstruct, slice]
  | cons e evs ih =>
    intro o sc
    rw [linePass_cons]
    by_cases h : o < e.1
    · rw [if_pos h]
      show (mkLexeme line n o e.1 sc).value ++
          reconstruct (linePass line n e.1 (applyChange sc e.2) evs).tokens =
        slice line o (linePass line n e.1 (applyChange sc e.2) evs).offset
      rw [ih]
      exact slice_append_slice line (Nat.le_of_lt h)
        (linePass_offset_le line n evs e.1 (applyChange sc e.2))
    · rw [if_neg h]
      exact ih o (applyChange sc e.2)

theorem linePass_token_shape (line : List Char) (n : Nat) :
    ∀ (evs : List (Nat × ScopeChange)) (o : Nat) (sc : List Scope),
      ∀ tok ∈ (linePass line n o sc evs).tokens, ∃ a b sc2,
        tok = Token.lexeme (mkLexeme line n a b sc2) ∧ o ≤ a ∧ a < b ∧
          b ≤ (linePass line n o sc evs).offset := by
  intro evs
  induction evs with
  | nil => intro o sc tok htok; simp [linePass_nil] at htok
  | cons e evs ih =>
    intro o sc tok htok
    rw [linePass_cons] at htok
    by_cases h : o < e.1
    · rw [if_pos h] at htok
      have hO := linePass_offset_le line n evs e.1 (applyChange sc e.2)
      rcases List.mem_cons.1 htok with he | he
      · refine ⟨o, e.1, sc, he, Nat.le_refl o, h, ?_⟩
        rw [linePass_cons, if_pos h]
        exact hO
      · obtain ⟨a, b, sc2, h1, h2, h3, h4⟩ := ih e.1 (applyChange sc e.2) tok he
        refine ⟨a, b, sc2, h1, Nat.le_trans (Nat.le_of_lt h) h2, h3, ?_⟩
        rw [linePass_cons, if_pos h]
        exact h4
    · rw [if_neg h] at htok
      obtain ⟨a, b, sc2, h1, h2, h3, h4⟩ := ih o (applyChange sc e.2) tok htok
      refine ⟨a, b, sc2, h1, h2, h3, ?_⟩
      rw [linePass_cons, if_neg h]
      exact h4

theorem linePass_positions (line : List Char) (n : Nat) :
    ∀ (evs : List (Nat × ScopeChange)) (o : Nat) (sc : List Scope),
      List.Pairwise (fun p q => p.offset < q.offset)
        (positionsOf (linePass line n o sc evs).tokens) ∧
      ∀ p ∈ positionsOf (linePass line n o sc evs).tokens,
        p.line = n ∧ o ≤ p.offset ∧ p.offset < (linePass line n o sc evs).offset := by
  intro evs
  induction evs with
  | nil =>
    intro o sc
    refine ⟨by simp [linePass_nil, positionsOf], ?_⟩
    intro p hp
    simp [linePass_nil, positionsOf] at hp
  | cons e evs ih =>
    intro o sc
    by_cases h : o < e.1
    · have hcons := linePass_cons line n e evs o sc
      rw [if_pos h] at hcons
      rw [hcons]
      obtain ⟨ihp, ihm⟩ := ih e.1 (applyChange sc e.2)
      have hO := linePass_offset_le line n evs e.1 (applyChange sc e.2)
      constructor
      · show List.Pairwise _ ((mkLexeme line n o e.1 sc).position ::
          positionsOf (linePass line n e.1 (applyChange sc e.2) evs).tokens)
        refine List.Pairwise.cons ?_ ihp
        intro q hq
        exact Nat.lt_of_lt_of_le h (ihm q hq).2.1
      · intro p hp
        have hp2 : p ∈ (mkLexeme line n o e.1 sc).position ::
            positionsOf (linePass line n e.1 (applyChange sc e.2) evs).tokens := hp
        rcases List.mem_cons.1 hp2 with he | he
        · subst he
          exact ⟨rfl, Nat.le_refl o, Nat.lt_of_lt_of_le h hO⟩
        · obtain ⟨h1, h2, h3⟩ := ihm p he
          exact ⟨h1, Nat.le_trans (Nat.le_of_lt h) h2, h3⟩
    · have hcons := linePass_cons line n e evs o sc
      rw [if_neg h] at hcons
      rw [hcons]
      exact ih o (applyChange sc e.2)

theorem linePass_scope_char (line : List Char) (n : Nat) :
    ∀ (evs : List (Nat × ScopeChange)) (o : Nat) (sc : List Scope),
      List.Pairwise (fun a b => a.1 ≤ b.1) evs → (∀ e ∈ evs, o ≤ e.1) →
      ∀ tok ∈ (linePass line n o sc evs).tokens, ∀ lex, tok = Token.lexeme lex →
        lex.scope =
          (applyEvs sc (evs.takeWhile fun e => decide (e.1 ≤ lex.position.offset))).getLast? ∧
        o ≤ lex.position.offset := by
  intro evs
  induction evs with
  | nil => intro o sc _ _ tok htok; simp [linePass_nil] at htok
  | cons e evs ih =>
    intro o sc hs hge tok htok lex heq
    obtain ⟨hhead, htail⟩ := List.pairwise_cons.1 hs
    rw [linePass_cons] at htok
    by_cases h : o < e.1
    · rw [if_pos h] at htok
      rcases List.mem_cons.1 htok with he | he
      · rw [he] at heq
        have hlex : lex = mkLexeme line n o e.1 sc := by
          injection heq.symm
        subst hlex
        have hoff : (mkLexeme line n o e.1 sc).position.offset = o := rfl
        rw [hoff]
        have htw : (e :: evs).takeWhile (fun x => decide (x.1 ≤ o)) = [] := by
          rw [List.takeWhile_cons]
          simp [Nat.not_le.2 h]
        rw [htw]
        exact ⟨rfl, Nat.le_refl o⟩
      · obtain ⟨hscope, hle⟩ := ih e.1 (applyChange sc e.2) htail
          (fun x hx => hhead x hx) tok he lex heq
        have htw : (e :: evs).takeWhile (fun x => decide (x.1 ≤ lex.position.offset)) =
            e :: evs.takeWhile (fun x => decide (x.1 ≤ lex.position.offset)) := by
          rw [List.takeWhile_cons]
          simp [hle]
        rw [htw, applyEvs_cons]
        exact ⟨hscope, Nat.le_trans (Nat.le_of_lt h) hle⟩
    · rw [if_neg h] at htok
      have heo : e.1 = o := Nat.le_antisymm (Nat.le_of_not_lt h) (hge e (List.mem_cons_self e evs))
      obtain ⟨hscope, hle⟩ := ih o (applyChange sc e.2) htail
        (fun x hx => heo ▸ hhead x hx) tok htok lex heq
      have htw : (e :: evs).takeWhile (fun x => decide (x.1 ≤ lex.position.offset)) =
          e :: evs.takeWhile (fun x => decide (x.1 ≤ lex.position.offset)) := by
        rw [List.takeWhile_cons]
        simp [heo, hle]
      rw [htw, applyEvs_cons]
      exact ⟨hscope, hle⟩

theorem parseLine_decomp (n : Nat) (line : List Char) (evs : List (Nat × ScopeChange))
    (sc : List Scope) :
    parseLine n line evs sc =
      ((if 0 < n then [Token.newline] else []) ++ lexLineTokens n line evs sc,
        applyEvs sc evs) := by
  simp only [parseLine, lexLineTokens, foldl_factor]
  by_cases h : (linePass line n 0 sc evs).offset < lineLength line <;>
    simp [h, linePass_scopes, List.append_assoc]

end Scribe

namespace Scribe

/-! ### Properties of one rebuilt line buffer -/

theorem takeWhile_all {α : Type} (p : α → Bool) :
    ∀ (l : List α), (∀ x ∈ l, p x = true) → l.takeWhile p = l
  | [], _ => rfl
  | a :: l, h => by
    rw [List.takeWhile_cons_of_pos (h a (List.mem_cons_self a l))]
    rw [takeWhile_all p l (fun x hx => h x (List.mem_cons_of_mem a hx))]

theorem parseLine_reconstruct (n : Nat) (line : List Char) (evs : List (Nat × ScopeChange))
    (sc : List Scope) (h : ∀ e ∈ evs, e.1 ≤ lineLength line) :
    reconstruct (parseLine n line evs sc).1 =
      (if 0 < n then ['\n'] else []) ++ line.take (lineLength line) := by
  rw [parseLine_decomp]
  show reconstruct ((if 0 < n then [Token.newline] else []) ++ lexLineTokens n line evs sc) = _
  rw [reconstruct_append]
  have hlead : reconstruct (if 0 < n then [Token.newline] else []) =
      (if 0 < n then ['\n'] else []) := by
    by_cases hn : 0 < n <;> simp [hn, reconstruct]
  rw [hlead]
  congr 1
  have hOle : (linePass line n 0 sc evs).offset ≤ lineLength line :=
    linePass_offset_bound line n evs 0 sc h (Nat.zero_le _)
  unfold lexLineTokens
  by_cases hO : (linePass line n 0 sc evs).offset < lineLength line
  · rw [if_pos hO, reconstruct_append, linePass_reconstruct]
    have hrem : reconstruct [Token.lexeme (mkLexeme line n (linePass line n 0 sc evs).offset
        (lineLength line) (linePass line n 0 sc evs).scopes)] =
        slice line (linePass line n 0 sc evs).offset (lineLength line) := by
      simp [reconstruct, mkLexeme]
    rw [hrem, slice_append_slice line (Nat.zero_le _) hOle, slice_zero_eq_take]
  · rw [if_neg hO, linePass_reconstruct]
    have heq : (linePass line n 0 sc evs).offset = lineLength line :=
      Nat.le_antisymm hOle (Nat.le_of_not_lt hO)
    rw [heq, slice_zero_eq_take]

theorem newline_not_mem_lexLineTokens (n : Nat) (line : List Char)
    (evs : List (Nat × ScopeChange)) (sc : List Scope) :
    Token.newline ∉ lexLineTokens n line evs sc := by
  intro hmem
  unfold lexLineTokens at hmem
  by_cases hO : (linePass line n 0 sc evs).offset < lineLength line
  · rw [if_pos hO] at hmem
    rcases List.mem_append.1 hmem with hm | hm
    · obtain ⟨a, b, sc2, h1, _⟩ := linePass_token_shape line n evs 0 sc _ hm
      exact Token.noConfusion h1
    · simp at hm
  · rw [if_neg hO] at hmem
    obtain ⟨a, b, sc2, h1, _⟩ := linePass_token_shape line n evs 0 sc _ hmem
    exact Token.noConfusion h1

theorem parseLine_countNL (n : Nat) (line : List Char) (evs : List (Nat × ScopeChange))
    (sc : List Scope) :
    countNL (parseLine n line evs sc).1 = if 0 < n then 1 else 0 := by
  rw [parseLine_decomp]
  show countNL ((if 0 < n then [Token.newline] else []) ++ lexLineTokens n line evs sc) = _
  rw [countNL_append, countNL_eq_zero_of_not_mem (newline_not_mem_lexLineTokens n line evs sc)]
  by_cases hn : 0 < n <;> simp [hn, countNL]

theorem parseLine_head_newline (n : Nat) (line : List Char) (evs : List (Nat × ScopeChange))
    (sc : List Scope) (hn : 0 < n) :
    (parseLine n line evs sc).1.head? = some Token.newline := by
  rw [parseLine_decomp]
  simp [hn]

theorem parseLine_newline_not_mem_of_first (line : List Char) (evs : List (Nat × ScopeChange))
    (sc : List Scope) :
    Token.newline ∉ (parseLine 0 line evs sc).1 := by
  rw [parseLine_decomp]
  intro hmem
  simp only [Nat.lt_irrefl, if_false, List.nil_append] at hmem
  exact newline_not_mem_lexLineTokens 0 line evs sc hmem

theorem parseLine_positionsOf (n : Nat) (line : List Char) (evs : List (Nat × ScopeChange))
    (sc : List Scope) :
    positionsOf (parseLine n line evs sc).1 = positionsOf (lexLineTokens n line evs sc) := by
  rw [parseLine_decomp]
  show positionsOf ((if 0 < n then [Token.newline] else []) ++ lexLineTokens n line evs sc) = _
  rw [positionsOf_append]
  by_cases hn : 0 < n <;> simp [hn, positionsOf]

theorem parseLine_positions (n : Nat) (line : List Char) (evs : List (Nat × ScopeChange))
    (sc : List Scope) :
    List.Pairwise (fun p q => p.offset < q.offset) (positionsOf (parseLine n line evs sc).1) ∧
    ∀ p ∈ positionsOf (parseLine n line evs sc).1, p.line = n := by
  rw [parseLine_positionsOf]
  obtain ⟨hp, hm⟩ := linePass_positions line n evs 0 sc
  unfold lexLineTokens
  by_cases hO : (linePass line n 0 sc evs).offset < lineLength line
  · rw [if_pos hO, positionsOf_append]
    have hrem : positionsOf [Token.lexeme (mkLexeme line n (linePass line n 0 sc evs).offset
        (lineLength line) (linePass line n 0 sc evs).scopes)] =
        [⟨n, (linePass line n 0 sc evs).offset⟩] := by
      simp [positionsOf, mkLexeme]
    rw [hrem]
    constructor
    · apply List.pairwise_append.2
      refine ⟨hp, List.pairwise_singleton _ _, ?_⟩
      intro p hp' q hq'
      rcases List.mem_singleton.1 hq' with rfl
      exact (hm p hp').2.2
    · intro p hp'
      rcases List.mem_append.1 hp' with hm' | hm'
      · exact (hm p hm').1
      · rcases List.mem_singleton.1 hm' with rfl
        rfl
  · rw [if_neg hO]
    exact ⟨hp, fun p hp' => (hm p hp').1⟩

theorem parseLine_lexeme_span {L : Nat} (n : Nat) (line : List Char)
    (evs : List (Nat × ScopeChange)) (sc : List Scope)
    (h : ∀ e ∈ evs, e.1 ≤ L) (hL : lineLength line ≤ L) :
    ∀ tok ∈ (parseLine n line evs sc).1, ∀ lex, tok = Token.lexeme lex →
      ∃ a b sc2, lex = mkLexeme line n a b sc2 ∧ a < b ∧ b ≤ L := by
  rw [parseLine_decomp]
  intro tok htok lex heq
  have htok2 : tok ∈ (if 0 < n then [Token.newline] else []) ++ lexLineTokens n line evs sc := htok
  rcases List.mem_append.1 htok2 with hm | hm
  · by_cases hn : 0 < n
    · rw [if_pos hn] at hm
      rcases List.mem_singleton.1 hm with rfl
      exact absurd heq (fun hx => Token.noConfusion hx)
    · rw [if_neg hn] at hm
      simp at hm
  · have hOL : (linePass line n 0 sc evs).offset ≤ L :=
      Nat.le_trans (linePass_offset_bound line n evs 0 sc
        (fun e he => Nat.le_trans (h e he) (Nat.le_refl L)) (Nat.zero_le _)) (Nat.le_refl L)
    unfold lexLineTokens at hm
    by_cases hO : (linePass line n 0 sc evs).offset < lineLength line
    · rw [if_pos hO] at hm
      rcases List.mem_append.1 hm with hm' | hm'
      · obtain ⟨a, b, sc2, h1, _, h3, h4⟩ := linePass_token_shape line n evs 0 sc _ hm'
        rw [heq] at h1
        refine ⟨a, b, sc2, ?_, h3, Nat.le_trans h4 hOL⟩
        injection h1
      · rcases List.mem_singleton.1 hm' with rfl
        have h1 : lex = mkLexeme line n (linePass line n 0 sc evs).offset (lineLength line)
            (linePass line n 0 sc evs).scopes := by
          injection heq with h1x
          exact h1x.symm
        exact ⟨_, _, _, h1, hO, hL⟩
    · rw [if_neg hO] at hm
      obtain ⟨a, b, sc2, h1, _, h3, h4⟩ := linePass_token_shape line n evs 0 sc _ hm
      rw [heq] at h1
      refine ⟨a, b, sc2, ?_, h3, Nat.le_trans h4 hOL⟩
      injection h1

end Scribe

namespace Scribe

theorem parseLine_scope_char (n : Nat) (line : List Char) (evs : List (Nat × ScopeChange))
    (sc : List Scope) (hs : List.Pairwise (fun a b => a.1 ≤ b.1) evs) :
    ∀ tok ∈ (parseLine n line evs sc).1, ∀ lex, tok = Token.lexeme lex →
      lex.scope =
        (applyEvs sc (evs.takeWhile fun e => decide (e.1 ≤ lex.position.offset))).getLast? := by
  rw [parseLine_decomp]
  intro tok htok lex heq
  have htok2 : tok ∈ (if 0 < n then [Token.newline] else []) ++ lexLineTokens n line evs sc := htok
  rcases List.mem_append.1 htok2 with hm | hm
  · by_cases hn : 0 < n
    · rw [if_pos hn] at hm
      rcases List.mem_singleton.1 hm with rfl
      exact absurd heq (fun hx => Token.noConfusion hx)
    · rw [if_neg hn] at hm
      simp at hm
  · unfold lexLineTokens at hm
    have hchar := linePass_scope_char line n evs 0 sc hs (fun e _ => Nat.zero_le e.1)
    by_cases hO : (linePass line n 0 sc evs).offset < lineLength line
    · rw [if_pos hO] at hm
      rcases List.mem_append.1 hm with hm' | hm'
      · exact (hchar tok hm' lex heq).1
      · rcases List.mem_singleton.1 hm' with rfl
        have h1 : lex = mkLexeme line n (linePass line n 0 sc evs).offset (lineLength line)
            (linePass line n 0 sc evs).scopes := by
          injection heq with h1x
          exact h1x.symm
        subst h1
        have hoff : (mkLexeme line n (linePass line n 0 sc evs).offset (lineLength line)
            (linePass line n 0 sc evs).scopes).position.offset =
            (linePass line n 0 sc evs).offset := rfl
        rw [hoff]
        have htw : evs.takeWhile (fun e => decide (e.1 ≤ (linePass line n 0 sc evs).offset)) =
            evs := by
          apply takeWhile_all
          intro x hx
          simp [linePass_events_le_offset line n evs 0 sc x hx]
        rw [htw]
        show (linePass line n 0 sc evs).scopes.getLast? = (applyEvs sc evs).getLast?
        rw [linePass_scopes]
    · rw [if_neg hO] at hm
      exact (hchar tok hm lex heq).1

/-! ### Document-level lemmas -/

theorem mem_numberLines_le (j : Nat) :
    ∀ (ls : List (List Char)), ∀ p ∈ numberLines j ls, j ≤ p.1 := by
  intro ls
  induction ls generalizing j with
  | nil => intro p hp; simp [numberLines] at hp
  | cons l ls ih =>
    intro p hp
    rcases List.mem_cons.1 hp with rfl | hp
    · exact Nat.le_refl j
    · exact Nat.le_trans (Nat.le_succ j) (ih (j + 1) p hp)

theorem numberLines_fst_pairwise (j : Nat) (ls : List (List Char)) :
    List.Pairwise (fun a b => a.1 < b.1) (numberLines j ls) := by
  induction ls generalizing j with
  | nil => exact List.Pairwise.nil
  | cons l ls ih =>
    refine List.Pairwise.cons ?_ (ih (j + 1))
    intro q hq
    exact Nat.lt_of_lt_of_le (Nat.lt_succ_self j) (mem_numberLines_le (j + 1) ls q hq)

theorem tokenizeLines_cons (ev : Nat → List (Nat × ScopeChange)) (sc : List Scope)
    (n : Nat) (line : List Char) (rest : List (Nat × List Char)) :
    tokenizeLines ev sc ((n, line) :: rest) =
      (parseLine n line (ev n) sc).1 ++ tokenizeLines ev (parseLine n line (ev n) sc).2 rest := rfl

theorem tokenizeLines_reconstruct (ev : Nat → List (Nat × ScopeChange)) :
    ∀ (ls : List (List Char)) (l : List Char) (j : Nat) (sc : List Scope), 0 < j →
      WellLines (l :: ls) →
      (∀ p ∈ numberLines j (l :: ls), ∀ e ∈ ev p.1, e.1 ≤ lineLength p.2) →
      reconstruct (tokenizeLines ev sc (numberLines j (l :: ls))) = '\n' :: flat (l :: ls) := by
  intro ls
  induction ls with
  | nil =>
    intro l j sc hj hw hev
    show reconstruct (tokenizeLines ev sc ((j, l) :: numberLines (j + 1) [])) = _
    rw [tokenizeLines_cons]
    show reconstruct ((parseLine j l (ev j) sc).1 ++ tokenizeLines ev _ []) = _
    rw [reconstruct_append]
    have h1 := parseLine_reconstruct j l (ev j) sc
      (hev (j, l) (List.mem_cons_self _ _))
    rw [h1, if_pos hj]
    have hlast : l.getLast? ≠ some '\n' := hw
    rw [lineLength_eq_length hlast, List.take_length]
    show '\n' :: (l ++ reconstruct []) = '\n' :: flat [l]
    simp [reconstruct, flat]
  | cons r rs ih =>
    intro l j sc hj hw hev
    obtain ⟨h1, h2⟩ := hw
    show reconstruct (tokenizeLines ev sc ((j, l) :: numberLines (j + 1) (r :: rs))) = _
    rw [tokenizeLines_cons, reconstruct_append]
    have hpl := parseLine_reconstruct j l (ev j) sc (hev (j, l) (List.mem_cons_self _ _))
    rw [hpl, if_pos hj]
    have hrest := ih r (j + 1) (parseLine j l (ev j) sc).2 (Nat.succ_pos j) h2
      (fun p hp => hev p (List.mem_cons_of_mem _ hp))
    rw [hrest]
    have hl : l.take (lineLength l) ++ ['\n'] = l := take_lineLength_append h1
    show '\n' :: (l.take (lineLength l) ++ ('\n' :: flat (r :: rs))) = '\n' :: flat (l :: r :: rs)
    have : l.take (lineLength l) ++ ('\n' :: flat (r :: rs)) =
        (l.take (lineLength l) ++ ['\n']) ++ flat (r :: rs) := by
      simp
    rw [this, hl]
    rfl

end Scribe

namespace Scribe

theorem tokenizeLines_countNL (ev : Nat → List (Nat × ScopeChange)) :
    ∀ (ls : List (List Char)) (j : Nat) (sc : List Scope), 0 < j →
      countNL (tokenizeLines ev sc (numberLines j ls)) = ls.length := by
  intro ls
  induction ls with
  | nil => intro j sc hj; rfl
  | cons l ls ih =>
    intro j sc hj
    show countNL (tokenizeLines ev sc ((j, l) :: numberLines (j + 1) ls)) = _
    rw [tokenizeLines_cons, countNL_append, parseLine_countNL, if_pos hj,
      ih (j + 1) _ (Nat.succ_pos j)]
    simp [Nat.add_comm]

theorem tokenizeLines_positions_line_mem (ev : Nat → List (Nat × ScopeChange)) :
    ∀ (pl : List (Nat × List Char)) (sc : List Scope),
      ∀ p ∈ positionsOf (tokenizeLines ev sc pl), ∃ q ∈ pl, p.line = q.1 := by
  intro pl
  induction pl with
  | nil => intro sc p hp; simp [tokenizeLines, positionsOf] at hp
  | cons q pl ih =>
    intro sc p hp
    obtain ⟨n, line⟩ := q
    rw [tokenizeLines_cons, positionsOf_append] at hp
    rcases List.mem_append.1 hp with hm | hm
    · exact ⟨(n, line), List.mem_cons_self _ _, (parseLine_positions n line (ev n) sc).2 p hm⟩
    · obtain ⟨q2, hq2, hpl⟩ := ih _ p hm
      exact ⟨q2, List.mem_cons_of_mem _ hq2, hpl⟩

theorem tokenizeLines_positions_pairwise (ev : Nat → List (Nat × ScopeChange)) :
    ∀ (pl : List (Nat × List Char)) (sc : List Scope),
      List.Pairwise (fun a b => a.1 < b.1) pl →
      List.Pairwise posLt (positionsOf (tokenizeLines ev sc pl)) := by
  intro pl
  induction pl with
  | nil => intro sc _; show List.Pairwise posLt (positionsOf []); simp [positionsOf]
  | cons q pl ih =>
    intro sc hp
    obtain ⟨n, line⟩ := q
    obtain ⟨hhead, htail⟩ := List.pairwise_cons.1 hp
    rw [tokenizeLines_cons, positionsOf_append]
    apply List.pairwise_append.2
    obtain ⟨hpw, hline⟩ := parseLine_positions n line (ev n) sc
    refine ⟨?_, ih _ htail, ?_⟩
    · apply hpw.imp_of_mem
      intro a b ha hb hab
      exact Or.inr ⟨(hline a ha).trans (hline b hb).symm, hab⟩
    · intro a ha b hb
      have h1 : a.line = n := hline a ha
      obtain ⟨q2, hq2, h2⟩ := tokenizeLines_positions_line_mem ev pl _ b hb
      exact Or.inl (by rw [h1, h2]; exact hhead q2 hq2)

end Scribe

namespace Scribe

/-! ### The outward iterator -/

theorem exhausted_next (it : TokenIterator) (h : Exhausted it) :
    next it = (none, ⟨it.scopes, none, [], it.events⟩) := by
  obtain ⟨sc, lt, lns, ev⟩ := it
  obtain ⟨h1, h2⟩ := h
  have h1' : lns = [] := h1
  subst h1'
  rcases h2 with h2 | h2
  · have h2' : lt = none := h2
    subst h2'
    rfl
  · have h2' : lt = some [] := h2
    subst h2'
    rfl

theorem exhausted_preserved (it : TokenIterator) (h : Exhausted it) :
    (next it).1 = none ∧ Exhausted (next it).2 := by
  rw [exhausted_next it h]
  exact ⟨rfl, rfl, Or.inl rfl⟩

end Scribe

namespace Scribe

theorem next_empty_buffer (sc : List Scope) (lt : Option (List Token))
    (lns : List (Nat × List Char)) (ev : Nat → List (Nat × ScopeChange))
    (hbuf : lt = none ∨ lt = some [])
    (htail : ∀ p ∈ lns.tail, 0 < p.1) :
    (next ⟨sc, lt, lns, ev⟩).1 = (tokenizeLines ev sc lns).head? := by
  rcases hbuf with h | h <;> subst h
  all_goals
    cases lns with
    | nil => rfl
    | cons q rest =>
      obtain ⟨n0, l0⟩ := q
      rcases hts : (parseLine n0 l0 (ev n0) sc).1 with _ | ⟨t, ts⟩
      · cases rest with
        | nil =>
          simp [next, nextToken, parseNextLine, hts, tokenizeLines_cons, tokenizeLines]
        | cons q2 rest2 =>
          obtain ⟨n1, l1⟩ := q2
          have hn1 : 0 < n1 := htail (n1, l1) (by simp)
          have hhead := parseLine_head_newline n1 l1 (ev n1) (parseLine n0 l0 (ev n0) sc).2 hn1
          rcases hts1 : (parseLine n1 l1 (ev n1) (parseLine n0 l0 (ev n0) sc).2).1 with _ | ⟨t1, ts1⟩
          · rw [hts1] at hhead
            simp at hhead
          · rw [hts1] at hhead
            simp only [List.head?_cons, Option.some.injEq] at hhead
            subst hhead
            simp [next, nextToken, parseNextLine, hts, hts1, tokenizeLines_cons]
      · simp [next, nextToken, parseNextLine, hts, tokenizeLines_cons]

end Scribe

namespace Scribe

/-! ### Claims -/

/-- C1, counterexample to the claim as stated: with the grammar engine
reporting an event at offset 2 on the line `"a\n"` (offset 2 is within the
slice but beyond the content length 1), the emitted lexeme swallows the
terminator, and the reconstruction gains an extra terminator: the round-trip
fails. -/
theorem claim1_roundtrip_counterexample :
    reconstruct (tokenizeDocument ['a', '\n']
      (fun n => if n = 0 then [(2, ([] : ScopeChange))] else [])) ≠ ['a', '\n'] := by
  decide

/-- C1 (amended): for every input text and every per-line event sequence
whose offsets stay at most the line's content length, concatenating the
`value` fields of all emitted lexeme tokens, with one terminator inserted at
each newline token's position in the stream, reconstructs the input text
exactly. -/
theorem claim1_roundtrip (text : List Char) (ev : Nat → List (Nat × ScopeChange))
    (h : ∀ p ∈ numberLines 0 (splitLines text), ∀ e ∈ ev p.1, e.1 ≤ lineLength p.2) :
    reconstruct (tokenizeDocument text ev) = text := by
  have hw := wellLines_splitLines text
  have hflat := flat_splitLines text
  cases hsp : splitLines text with
  | nil => exact absurd hsp (splitLines_ne_nil text)
  | cons l ls =>
    rw [hsp] at hw hflat h
    unfold tokenizeDocument
    rw [hsp]
    show reconstruct (tokenizeLines ev [] ((0, l) :: numberLines 1 ls)) = text
    rw [tokenizeLines_cons, reconstruct_append]
    have hpl := parseLine_reconstruct 0 l (ev 0) [] (h (0, l) (List.mem_cons_self _ _))
    rw [hpl, if_neg (Nat.lt_irrefl 0), List.nil_append]
    cases ls with
    | nil =>
      have hlast : l.getLast? ≠ some '\n' := hw
      rw [lineLength_eq_length hlast, List.take_length, ← hflat]
      show l ++ reconstruct (tokenizeLines ev _ []) = flat [l]
      simp [flat, tokenizeLines, reconstruct]
    | cons r rs =>
      obtain ⟨h1, h2⟩ := hw
      have hrest := tokenizeLines_reconstruct ev rs r 1 (parseLine 0 l (ev 0) []).2
        Nat.one_pos h2 (fun p hp => h p (List.mem_cons_of_mem _ hp))
      rw [hrest, ← hflat]
      show l.take (lineLength l) ++ ('\n' :: flat (r :: rs)) = flat (l :: r :: rs)
      rw [show l.take (lineLength l) ++ ('\n' :: flat (r :: rs)) =
        (l.take (lineLength l) ++ ['\n']) ++ flat (r :: rs) from by simp,
        take_lineLength_append h1]
      rfl

/-- C1 witness: a concrete two-line document with an in-bounds event
round-trips exactly. -/
theorem claim1_roundtrip_witness :
    reconstruct (tokenizeDocument ['a', 'b', '\n', 'c']
      (fun n => if n = 0 then [(1, [ScopeOp.push 5])] else [])) = ['a', 'b', '\n', 'c'] :=
  claim1_roundtrip ['a', 'b', '\n', 'c']
    (fun n => if n = 0 then [(1, [ScopeOp.push 5])] else []) (by decide)

/-- C2, counterexample to the claim as stated: an event whose offset (2)
strictly exceeds the content length (1) of the line `"a\n"` makes
`parse_next_line` emit a lexeme whose value contains the terminator and
whose span leaves `[0, content_length)`. -/
theorem claim2_no_terminator_counterexample :
    (parseLine 0 ['a', '\n'] [(2, ([] : ScopeChange))] []).1 =
      [Token.lexeme ⟨['a', '\n'], none, ⟨0, 0⟩⟩] ∧
    '\n' ∈ (['a', '\n'] : List Char) ∧ ['a', '\n'] ∈ splitLines ['a', '\n'] := by
  decide

/-- C2 (amended): for every line produced by the line source and every event
sequence whose offsets are at most the line's content length (offsets equal
to the content length included), no emitted lexeme's value contains the
terminator, and every lexeme span lies within `[0, content_length)`. -/
theorem claim2_no_terminator (text : List Char) (n : Nat) (line : List Char)
    (evs : List (Nat × ScopeChange)) (sc : List Scope)
    (hline : line ∈ splitLines text)
    (h : ∀ e ∈ evs, e.1 ≤ lineLength line) :
    ∀ tok ∈ (parseLine n line evs sc).1, ∀ lex, tok = Token.lexeme lex →
      '\n' ∉ lex.value ∧ lex.position.offset + lex.value.length ≤ lineLength line := by
  intro tok htok lex heq
  obtain ⟨a, b, sc2, h1, h2, h3⟩ :=
    parseLine_lexeme_span n line evs sc h (Nat.le_refl _) tok htok lex heq
  subst h1
  constructor
  · intro hmem
    exact no_nl_in_content text line hline (mem_slice_mem_take h3 '\n' hmem)
  · show a + (slice line a b).length ≤ lineLength line
    rw [slice_length]
    have := Nat.min_le_left (b - a) (line.length - a)
    omega

/-- C2 witness: for the line `"a\n"` with one event at offset 1 equal to the
content length, the emitted lexeme avoids the terminator and stays inside
the content. -/
theorem claim2_no_terminator_witness :
    '\n' ∉ (['a'] : List Char) ∧ (0 : Nat) + 1 ≤ lineLength ['a', '\n'] := by
  have h := claim2_no_terminator ['a', '\n'] 0 ['a', '\n'] [(1, [])] [] (by decide) (by decide)
    (Token.lexeme ⟨['a'], none, ⟨0, 0⟩⟩) (by decide) ⟨['a'], none, ⟨0, 0⟩⟩ rfl
  exact ⟨h.1, h.2⟩

/-- C3: with the engine's events in ascending offset order, the scope
attached to every emitted lexeme (at a scope-change boundary or as the
end-of-line remainder) is the deepest scope of the stack obtained by
applying exactly the transitions whose offsets are at or before the span's
start - so before the transition at the span's right boundary - and it is
`none` exactly when that stack is empty. -/
theorem claim3_scope_assignment (n : Nat) (line : List Char) (evs : List (Nat × ScopeChange))
    (sc : List Scope) (hs : List.Pairwise (fun a b => a.1 ≤ b.1) evs) :
    ∀ tok ∈ (parseLine n line evs sc).1, ∀ lex, tok = Token.lexeme lex →
      lex.scope =
        (applyEvs sc (evs.takeWhile fun e => decide (e.1 ≤ lex.position.offset))).getLast? ∧
      (lex.scope = none ↔
        applyEvs sc (evs.takeWhile fun e => decide (e.1 ≤ lex.position.offset)) = []) := by
  intro tok htok lex heq
  have h1 := parseLine_scope_char n line evs sc hs tok htok lex heq
  refine ⟨h1, ?_⟩
  rw [h1]
  exact List.getLast?_eq_none_iff

/-- C3 witness: on the line `"abc"` with a push at offset 1 and a pop at
offset 2, the middle lexeme carries the pushed scope, computed from exactly
the transitions at or before its start. -/
theorem claim3_scope_assignment_witness :
    (some 7 : Option Scope) =
      (applyEvs [] (([(1, [ScopeOp.push 7]), (2, [ScopeOp.pop])] :
        List (Nat × ScopeChange)).takeWhile fun e => decide (e.1 ≤ 1))).getLast? ∧
    ((some 7 : Option Scope) = none ↔
      applyEvs [] (([(1, [ScopeOp.push 7]), (2, [ScopeOp.pop])] :
        List (Nat × ScopeChange)).takeWhile fun e => decide (e.1 ≤ 1)) = []) :=
  claim3_scope_assignment 0 ['a', 'b', 'c'] [(1, [ScopeOp.push 7]), (2, [ScopeOp.pop])] []
    (by decide) (Token.lexeme ⟨['b'], some 7, ⟨0, 1⟩⟩) (by decide)
    ⟨['b'], some 7, ⟨0, 1⟩⟩ rfl

/-- C4: the stream contains exactly one newline token per transition between
consecutive lines (none before the first line), and within each rebuilt line
buffer the newline token, when present, precedes every content token. -/
theorem claim4_newlines :
    (∀ (text : List Char) (ev : Nat → List (Nat × ScopeChange)),
      countNL (tokenizeDocument text ev) = (splitLines text).length - 1) ∧
    (∀ (n : Nat) (line : List Char) (evs : List (Nat × ScopeChange)) (sc : List Scope),
      (0 < n → (parseLine n line evs sc).1.head? = some Token.newline ∧
        countNL (parseLine n line evs sc).1 = 1) ∧
      (n = 0 → Token.newline ∉ (parseLine n line evs sc).1)) := by
  constructor
  · intro text ev
    cases hsp : splitLines text with
    | nil => exact absurd hsp (splitLines_ne_nil text)
    | cons l ls =>
      unfold tokenizeDocument
      rw [hsp]
      show countNL (tokenizeLines ev [] ((0, l) :: numberLines 1 ls)) = (l :: ls).length - 1
      rw [tokenizeLines_cons, countNL_append, parseLine_countNL,
        if_neg (Nat.lt_irrefl 0), tokenizeLines_countNL ev ls 1 _ Nat.one_pos]
      simp
  · intro n line evs sc
    constructor
    · intro hn
      exact ⟨parseLine_head_newline n line evs sc hn, by rw [parseLine_countNL, if_pos hn]⟩
    · intro hn
      subst hn
      exact parseLine_newline_not_mem_of_first line evs sc

/-- C4 witness: a concrete two-line document has one newline token; a
non-first line's buffer starts with its single newline token; a first line's
buffer has none. -/
theorem claim4_newlines_witness :
    countNL (tokenizeDocument ['x', '\n', 'y'] (fun _ => [])) = 1 ∧
    (parseLine 3 ['y'] [] []).1.head? = some Token.newline ∧
    countNL (parseLine 3 ['y'] [] []).1 = 1 ∧
    Token.newline ∉ (parseLine 0 ['y'] [] []).1 := by
  have h1 := claim4_newlines.1 ['x', '\n', 'y'] (fun _ => [])
  have h2 := (claim4_newlines.2 3 ['y'] [] []).1 (by decide)
  have h3 := (claim4_newlines.2 0 ['y'] [] []).2 rfl
  exact ⟨h1.trans (by decide), h2.1, h2.2, h3⟩

/-- C5: across the whole stream, lexeme positions are strictly increasing in
(line, offset) lexicographic order - hence monotonically non-decreasing
across the stream, with strictly increasing offsets within each line. -/
theorem claim5_position_monotone (text : List Char) (ev : Nat → List (Nat × ScopeChange)) :
    List.Pairwise posLt (positionsOf (tokenizeDocument text ev)) := by
  unfold tokenizeDocument
  exact tokenizeLines_positions_pairwise ev _ [] (numberLines_fst_pairwise 0 (splitLines text))

/-- C6: with event offsets within the line slice (the non-panicking
executions of the Rust code), no emitted lexeme is zero-length - a lexeme is
emitted only when the event offset strictly exceeds the running cursor - yet
every event's transition is applied to the scope stack, same-offset events
included. -/
theorem claim6_no_zero_length (n : Nat) (line : List Char) (evs : List (Nat × ScopeChange))
    (sc : List Scope) (h : ∀ e ∈ evs, e.1 ≤ line.length) :
    (∀ tok ∈ (parseLine n line evs sc).1, ∀ lex, tok = Token.lexeme lex → lex.value ≠ []) ∧
    (parseLine n line evs sc).2 = applyEvs sc evs := by
  constructor
  · intro tok htok lex heq
    obtain ⟨a, b, sc2, h1, h2, h3⟩ :=
      parseLine_lexeme_span n line evs sc h (lineLength_le_length line) tok htok lex heq
    subst h1
    show slice line a b ≠ []
    intro hnil
    have hlen := slice_length line a b
    rw [hnil] at hlen
    simp only [List.length_nil] at hlen
    omega
  · rw [parseLine_decomp]

/-- C6 witness: two events at the same offset 1 on the line `"ab"` produce
no zero-length lexeme, and both transitions reach the scope stack. -/
theorem claim6_no_zero_length_witness :
    (['a'] : List Char) ≠ [] ∧
    (parseLine 0 ['a', 'b'] [(1, [ScopeOp.push 4]), (1, [ScopeOp.pop])] []).2 =
      applyEvs [] [(1, [ScopeOp.push 4]), (1, [ScopeOp.pop])] := by
  have h := claim6_no_zero_length 0 ['a', 'b'] [(1, [ScopeOp.push 4]), (1, [ScopeOp.pop])] []
    (by decide)
  exact ⟨h.1 (Token.lexeme ⟨['a'], none, ⟨0, 0⟩⟩) (by decide) ⟨['a'], none, ⟨0, 0⟩⟩ rfl, h.2⟩

/-- C7, counterexample to the claim as stated: a line with no events but
zero content length (the line `"\n"`) yields no lexeme at all, not exactly
one. -/
theorem claim7_single_lexeme_counterexample :
    (parseLine 1 ['\n'] [] []).1 = [Token.newline] ∧
    (parseLine 1 ['\n'] [] []).1.filter isLex = [] := by
  decide

/-- C7 (amended): every line with no scope-change events and positive
content length yields exactly one lexeme, spanning `[0, content_length)` and
carrying the deepest scope left on the stack by previous lines. -/
theorem claim7_single_lexeme (n : Nat) (line : List Char) (sc : List Scope)
    (h : 0 < lineLength line) :
    (parseLine n line [] sc).1 =
      (if 0 < n then [Token.newline] else []) ++
        [Token.lexeme ⟨line.take (lineLength line), sc.getLast?, ⟨n, 0⟩⟩] := by
  have hd := parseLine_decomp n line [] sc
  rw [hd]
  show (if 0 < n then [Token.newline] else []) ++ lexLineTokens n line [] sc = _
  congr 1
  unfold lexLineTokens
  rw [if_pos (show (linePass line n 0 sc []).offset < lineLength line from h)]
  show [] ++ [Token.lexeme (mkLexeme line n 0 (lineLength line) sc)] = _
  rw [List.nil_append,
    show mkLexeme line n 0 (lineLength line) sc =
      ⟨line.take (lineLength line), sc.getLast?, ⟨n, 0⟩⟩ from by
        unfold mkLexeme
        rw [slice_zero_eq_take]]

/-- C7 witness: a non-first line `"ab\n"` with no events and a non-empty
stack yields the newline token followed by exactly one full-content lexeme
scoped by the inherited stack top. -/
theorem claim7_single_lexeme_witness :
    (parseLine 2 ['a', 'b', '\n'] [] [9]).1 =
      [Token.newline, Token.lexeme ⟨['a', 'b'], some 9, ⟨2, 0⟩⟩] := by
  have h := claim7_single_lexeme 2 ['a', 'b', '\n'] [9] (by decide)
  exact h.trans (by decide)

/-- C8: every scope-change event is applied to the scope stack,
unconditionally and in event order, regardless of where its offset falls
relative to the content length: the final stack is exactly the in-order fold
of all the line's events over the incoming stack. -/
theorem claim8_apply_unconditional (n : Nat) (line : List Char)
    (evs : List (Nat × ScopeChange)) (sc : List Scope) :
    (parseLine n line evs sc).2 = applyEvs sc evs := by
  rw [parseLine_decomp]

/-- C9: once the stream is exhausted (no lines remain and the buffer is
empty or absent), every subsequent pull returns `none` and the state stays
exhausted - no error, no stale token. -/
theorem claim9_exhaustion (it : TokenIterator) (h : Exhausted it) :
    ∀ k : Nat, (next (afterPulls it k)).1 = none ∧ Exhausted (afterPulls it k) := by
  intro k
  induction k with
  | zero => exact ⟨(exhausted_preserved it h).1, h⟩
  | succ k ih =>
    show (next (next (afterPulls it k)).2).1 = none ∧ Exhausted (next (afterPulls it k)).2
    have h2 := (exhausted_preserved _ ih.2).2
    exact ⟨(exhausted_preserved _ h2).1, h2⟩

/-- C9 witness: pulling twice more from a concrete exhausted iterator still
yields nothing and stays exhausted. -/
theorem claim9_exhaustion_witness :
    (next (afterPulls ⟨[], some [], [], fun _ => []⟩ 2)).1 = none ∧
      Exhausted (afterPulls ⟨[], some [], [], fun _ => []⟩ 2) :=
  claim9_exhaustion ⟨[], some [], [], fun _ => []⟩ ⟨rfl, Or.inr rfl⟩ 2

/-- C10: a non-first line's rebuilt buffer always starts with its newline
token, so it is non-empty; consequently, from any buffer-exhausted state
whose pending non-head lines all have positive line numbers, one `next`
returns exactly the head of the remaining denotation - the single extra
`parse_next_line` retry inside `Iterator::next` suffices, and an empty first
line neither ends the stream prematurely nor skips later tokens. -/
theorem claim10_retry (it : TokenIterator)
    (hbuf : it.lineTokens = none ∨ it.lineTokens = some [])
    (htail : ∀ p ∈ it.lines.tail, 0 < p.1) :
    (∀ (n : Nat) (line : List Char) (evs : List (Nat × ScopeChange)) (sc : List Scope),
      0 < n → (parseLine n line evs sc).1.head? = some Token.newline) ∧
    (next it).1 = (tokenizeLines it.events it.scopes it.lines).head? := by
  refine ⟨fun n line evs sc hn => parseLine_head_newline n line evs sc hn, ?_⟩
  obtain ⟨sc, lt, lns, ev⟩ := it
  exact next_empty_buffer sc lt lns ev hbuf htail

/-- C10 witness: with an empty first line (line 0) followed by line 1, the
retry in `next` yields line 1's leading newline token instead of ending the
stream. -/
theorem claim10_retry_witness :
    (next ⟨[], none, [(0, []), (1, ['b'])], fun _ => []⟩).1 =
      (tokenizeLines (fun _ => []) [] [(0, []), (1, ['b'])]).head? ∧
    (next ⟨[], none, [(0, []), (1, ['b'])], fun _ => []⟩).1 = some Token.newline := by
  have h := claim10_retry ⟨[], none, [(0, []), (1, ['b'])], fun _ => []⟩ (Or.inl rfl) (by decide)
  exact ⟨h.2, h.2.trans (by decide)⟩

end Scribe
